import Mathlib

/-!
# Verification of the chess-autoracer board logic (`src/main.py`)

Shallow embedding of the pure logic of `main.py`:

* `Point`, `Chessboard.calculate_centers` (lines 20–42): screen-pixel arithmetic.
  Python computes with IEEE floats; since the spec imposes no rounding
  requirement and all claims are exact arithmetic identities, coordinates are
  modelled over `ℚ` (exact, no rounding).
* `Chessboard.make_move` (lines 63–85): a Python string is modelled as
  `List Char`; `move[i]` on a string of length ≥ 4 is `move.getD i ' '`
  (the default is never reached on the ≥-4-length domain all theorems use);
  `int(move[i])` on a digit character is its digit value; Python list
  indexing, which accepts negative indices counting from the end and raises
  `IndexError` otherwise, is `pyGet`; an uncaught fault is modelled as `none`,
  and the two clicked points are returned as the pair (origin, destination).
* `ChessEngine.board_to_fen` (lines 116–153): Python strings again as
  `List Char`; `str(empty_counter)` is `Nat.toDigits 10 empty_counter`;
  `fen[:-1]` is `List.dropLast`.
* `ChessEngine.get_board_from_screenshot` (lines 105–114) and the per-iteration
  FEN computation of `main` (lines 190–199), including the board flip performed
  when the tracked color is `"black"`.
-/

namespace Autoracer

/-- `Point = namedtuple("Point", ["x", "y"])` (line 6), with pixel coordinates
modelled exactly over `ℚ`. -/
structure Point where
  x : ℚ
  y : ℚ
deriving DecidableEq

/-- `Chessboard.calculate_centers` (lines 20–42): divide the rectangle spanned
by the two corners into an 8×8 grid and return the square centers indexed
`[row][col]`.  The Python code builds the nested list with two loops over
`range(8)`, appending `Point(x, y)` with
`x = upper_left_corner.x + (col + 0.5) * square_width` and
`y = upper_left_corner.y + (row + 0.5) * square_height`. -/
def calculate_centers (upper_left_corner lower_right_corner : Point) :
    List (List Point) :=
  let square_width : ℚ := (lower_right_corner.x - upper_left_corner.x) / 8
  let square_height : ℚ := (lower_right_corner.y - upper_left_corner.y) / 8
  (List.range 8).map (fun (row : Nat) =>
    (List.range 8).map (fun (col : Nat) =>
      { x := upper_left_corner.x + ((col : ℚ) + 0.5) * square_width
        y := upper_left_corner.y + ((row : ℚ) + 0.5) * square_height }))

/-- Python list subscription `l[i]`: a nonnegative index is looked up directly,
a negative index counts from the end (`l[-1]` is the last element), and an
index outside `-len(l) .. len(l) - 1` raises `IndexError`, modelled as
`none`. -/
def pyGet {α : Type} (l : List α) (i : Int) : Option α :=
  if 0 ≤ i then l[i.toNat]?
  else if 0 ≤ i + l.length then l[(i + l.length).toNat]?
  else none

/-- `ord(c) - ord("a")` (lines 74 and 76): the column index computed by
`make_move` for a file character. -/
def fileIndex (c : Char) : Int :=
  (c.toNat : Int) - ('a'.toNat : Int)

/-- `8 - int(c)` (lines 75 and 77): the row index computed by `make_move` for a
rank character.  `int(c)` is modelled as the digit value `c.toNat - '0'.toNat`,
which agrees with Python exactly when `c` is a digit (for a non-digit Python
raises `ValueError` instead, before any grid lookup). -/
def rankIndex (c : Char) : Int :=
  8 - ((c.toNat : Int) - ('0'.toNat : Int))

/-- `Chessboard.make_move` (lines 63–85), its pure part: parse the move string,
look up the origin point `board_coords[origin_row][origin_column]` and then the
destination point `board_coords[dest_row][dest_column]`, in that order, with
Python indexing semantics (`pyGet`).  The function itself validates nothing; a
failing lookup is the uncaught `IndexError`, modelled as `none`.  The two
points that would be clicked are returned as (origin, destination). -/
def make_move (board_coords : List (List Point)) (move : List Char) :
    Option (Point × Point) :=
  let origin_column := fileIndex (move.getD 0 ' ')
  let origin_row := rankIndex (move.getD 1 ' ')
  let dest_column := fileIndex (move.getD 2 ' ')
  let dest_row := rankIndex (move.getD 3 ' ')
  (pyGet board_coords origin_row).bind (fun origin_row_list =>
    (pyGet origin_row_list origin_column).bind (fun origin =>
      (pyGet board_coords dest_row).bind (fun dest_row_list =>
        (pyGet dest_row_list dest_column).map (fun destination =>
          (origin, destination)))))

/-- One step of the inner column loop of `board_to_fen` (lines 131–139).  The
state is the FEN text accumulated so far together with the pending
`empty_counter`; `square` is `board_pieces[8 - row][column - 1]`. -/
def fenSquareStep (st : List Char × Nat) (square : Char) : List Char × Nat :=
  if square = '-' then
    (st.1, st.2 + 1)
  else
    let fen := if st.2 > 0 then st.1 ++ Nat.toDigits 10 st.2 else st.1
    (fen ++ [square], 0)

/-- One iteration of the outer row loop of `board_to_fen` (lines 129–142):
encode one row of the matrix left to right, flush a pending empty counter at
the end of the row, and append the rank separator `"/"`. -/
def fenRowStep (fen : List Char) (row : List Char) : List Char :=
  let st := row.foldl fenSquareStep (fen, 0)
  let fen := if st.2 > 0 then st.1 ++ Nat.toDigits 10 st.2 else st.1
  fen ++ ['/']

/-- The rows visited by the outer loop of `board_to_fen`: `for row in
range(8, 0, -1)` reads `board_pieces[8 - row]`, i.e. indices 0, 1, …, 7 in that
order.  On an 8-row matrix this is the matrix itself (`getD`'s default is never
reached; Python would raise `IndexError` on shorter input). -/
def fenRows (board_pieces : List (List Char)) : List (List Char) :=
  (List.range 8).map (fun i => board_pieces.getD i [])

/-- The piece-placement computation of `board_to_fen` (lines 128–145),
including `fen = fen[:-1]`, which deletes the trailing `'/'`. -/
def fenPlacement (board_pieces : List (List Char)) : List Char :=
  ((fenRows board_pieces).foldl fenRowStep []).dropLast

/-- `ChessEngine.board_to_fen` (lines 116–153): the piece-placement field
followed by the fixed-suffix fields (lines 147–151): `" w - - 0 1"` when
`color_to_move == "black"`, else `" b - - 0 1"`. -/
def board_to_fen (board_pieces : List (List Char)) (color_to_move : String) :
    List Char :=
  let fen := fenPlacement board_pieces
  if color_to_move = "black" then fen ++ (" w - - 0 1").data
  else fen ++ (" b - - 0 1").data

/-- The stub board returned by `ChessEngine.get_board_from_screenshot`
(lines 105–114). -/
def get_board_from_screenshot : List (List Char) :=
  [['R', '-', 'B', 'K', '-', '-', '-', 'R'],
   ['-', 'P', 'P', '-', 'P', '-', '-', '-'],
   ['-', '-', '-', 'P', '-', '-', '-', '-'],
   ['P', 'b', '-', '-', '-', '-', 'n', '-'],
   ['-', '-', '-', '-', 'P', '-', '-', '-'],
   ['p', 'p', 'B', '-', '-', '-', '-', '-'],
   ['-', '-', '-', '-', '-', '-', 'p', 'p'],
   ['-', 'k', '-', 'r', '-', '-', '-', 'r']]

/-- The board flip in `main` (line 197):
`board = [list(reversed(row)) for row in reversed(board)]`. -/
def flipBoard (board : List (List Char)) : List (List Char) :=
  board.reverse.map List.reverse

/-- The FEN computed by one iteration of the loop in `main` (lines 190–199):
the stub board from `get_board_from_screenshot`, flipped when the tracked
color is `"black"`, then encoded by `board_to_fen` with that color. -/
def mainLoopFen (color : String) : List Char :=
  let board := get_board_from_screenshot
  let board := if color = "black" then flipBoard board else board
  board_to_fen board color

/-- The piece-placement field of a FEN string: the text before the first
space. -/
def placementField (fen : List Char) : List Char :=
  fen.takeWhile (fun c => c != ' ')

/-- The encoding `board_to_fen` produces for a single row, starting from an
empty accumulator: squares left to right, each maximal run of `'-'` collapsed
to its length as a digit. -/
def rankFen (row : List Char) : List Char :=
  let st := row.foldl fenSquareStep ([], 0)
  if st.2 > 0 then st.1 ++ Nat.toDigits 10 st.2 else st.1

/-- Modelled from the spec: the piece-placement field as claim C2 describes
it — ranks emitted "from the matrix's last row (index 7) first to its first
row (index 0) last", each rank encoded left to right with runs of empties
collapsed, ranks separated by `'/'` with no trailing separator.  For
comparison with the code's `fenPlacement`. -/
def lastRowFirstPlacement (board_pieces : List (List Char)) : List Char :=
  List.intercalate ['/'] ((fenRows board_pieces).reverse.map rankFen)

/-- The standard initial chess setup of claim C1: row 0 = `"rnbqkbnr"`,
row 1 = `"pppppppp"`, rows 2–5 all empty, row 6 = `"PPPPPPPP"`,
row 7 = `"RNBQKBNR"`. -/
def initialSetup : List (List Char) :=
  [['r', 'n', 'b', 'q', 'k', 'b', 'n', 'r'],
   ['p', 'p', 'p', 'p', 'p', 'p', 'p', 'p'],
   ['-', '-', '-', '-', '-', '-', '-', '-'],
   ['-', '-', '-', '-', '-', '-', '-', '-'],
   ['-', '-', '-', '-', '-', '-', '-', '-'],
   ['-', '-', '-', '-', '-', '-', '-', '-'],
   ['P', 'P', 'P', 'P', 'P', 'P', 'P', 'P'],
   ['R', 'N', 'B', 'Q', 'K', 'B', 'N', 'R']]

/-- The weight a character contributes to a FEN rank segment: a digit counts
its numeric value, any other character counts one square. -/
def squareWeight (c : Char) : Nat :=
  if c.isDigit then c.toNat - '0'.toNat else 1

/-- Total number of squares a rank segment accounts for. -/
def rankWeight (seg : List Char) : Nat :=
  (seg.map squareWeight).sum

/-- Claim C9's per-segment quantity, stated the way the claim words it: the
sum of the numeric values of the digit characters plus the count of the
non-digit characters. -/
def segmentWeight (seg : List Char) : Nat :=
  ((seg.filter (fun c => c.isDigit)).map (fun c => c.toNat - '0'.toNat)).sum
    + (seg.filter (fun c => !c.isDigit)).length

/-- The all-empty board: every square `'-'`. -/
def emptyBoard : List (List Char) :=
  List.replicate 8 (List.replicate 8 '-')

/-- An 8×8 matrix whose first row (index 0) is eight `'K'`s and whose other
rows are empty: its first and last rows encode differently, so it separates
the two candidate rank orders of the piece-placement field. -/
def kBoard : List (List Char) :=
  [['K', 'K', 'K', 'K', 'K', 'K', 'K', 'K'],
   ['-', '-', '-', '-', '-', '-', '-', '-'],
   ['-', '-', '-', '-', '-', '-', '-', '-'],
   ['-', '-', '-', '-', '-', '-', '-', '-'],
   ['-', '-', '-', '-', '-', '-', '-', '-'],
   ['-', '-', '-', '-', '-', '-', '-', '-'],
   ['-', '-', '-', '-', '-', '-', '-', '-'],
   ['-', '-', '-', '-', '-', '-', '-', '-']]

/-- A fully occupied board: every square the piece letter `'K'`. -/
def fullBoard : List (List Char) :=
  List.replicate 8 (List.replicate 8 'K')

/-- A concrete 8×8 coordinate grid for witnesses and counterexamples: the
point at `[row][col]` is `(col, row)`, so a looked-up point names its own
indices. -/
def gTest : List (List Point) :=
  (List.range 8).map (fun (row : Nat) =>
    (List.range 8).map (fun (col : Nat) => Point.mk (col : ℚ) (row : ℚ)))

/-! ## Structure of the piece-placement computation -/

/-- The inner loop of `board_to_fen` only appends: folding from an accumulator
with prefix `p` yields that prefix followed by the fold from the rest. -/
theorem foldl_fenSquareStep_append (row : List Char) (p s : List Char) (n : Nat) :
    row.foldl fenSquareStep (p ++ s, n) =
      (p ++ (row.foldl fenSquareStep (s, n)).1, (row.foldl fenSquareStep (s, n)).2) := by
  induction row generalizing s n with
  | nil => rfl
  | cons c rest ih =>
    by_cases hc : c = '-'
    · simpa [fenSquareStep, hc] using ih s (n + 1)
    · by_cases hn : n > 0
      · simpa [fenSquareStep, hc, hn, List.append_assoc]
          using ih (s ++ Nat.toDigits 10 n ++ [c]) 0
      · simpa [fenSquareStep, hc, hn, List.append_assoc] using ih (s ++ [c]) 0

/-- One outer-loop iteration appends exactly the encoding of its row and the
rank separator. -/
theorem fenRowStep_eq (fen row : List Char) :
    fenRowStep fen row = fen ++ rankFen row ++ ['/'] := by
  have h := foldl_fenSquareStep_append row fen [] 0
  rw [List.append_nil] at h
  simp only [fenRowStep, rankFen, h]
  by_cases h2 : (row.foldl fenSquareStep ([], 0)).2 > 0 <;>
    simp [h2, List.append_assoc]

/-- The outer loop of `board_to_fen` produces the concatenation of the row
encodings, each followed by `'/'`. -/
theorem foldl_fenRowStep (M : List (List Char)) (fen : List Char) :
    M.foldl fenRowStep fen = fen ++ (M.map (fun r => rankFen r ++ ['/'])).flatten := by
  induction M generalizing fen with
  | nil => simp
  | cons r M ih => simp [fenRowStep_eq, ih, List.append_assoc]

/-- Dropping the final `'/'` of slash-terminated chunks gives the
slash-separated join. -/
theorem flatten_slash_dropLast (L : List (List Char)) (hL : L ≠ []) :
    ((L.map (fun r => r ++ ['/'])).flatten).dropLast = List.intercalate ['/'] L := by
  induction L with
  | nil => cases hL rfl
  | cons a L ih =>
    cases L with
    | nil => simp [List.intercalate]
    | cons b L' =>
      have h2 : ((b :: L').map (fun r => r ++ ['/'])).flatten ≠ [] := by simp
      rw [List.map_cons, List.flatten_cons, List.dropLast_append_of_ne_nil _ h2,
        ih (by simp)]
      simp [List.intercalate, List.append_assoc]

/-- On an 8-row matrix the index arithmetic of the outer loop visits exactly
the rows of the matrix, in order. -/
theorem fenRows_eq_self (M : List (List Char)) (h : M.length = 8) : fenRows M = M := by
  rcases M with _ | ⟨r0, _ | ⟨r1, _ | ⟨r2, _ | ⟨r3, _ | ⟨r4, _ | ⟨r5, _ | ⟨r6, _ | ⟨r7, _ | ⟨r8, t⟩⟩⟩⟩⟩⟩⟩⟩⟩ <;>
    first
      | rfl
      | simp_all

/-- The piece-placement field of an 8-row matrix: the row encodings in matrix
order, separated by `'/'`, no trailing separator. -/
theorem fenPlacement_eq (M : List (List Char)) (h : M.length = 8) :
    fenPlacement M = List.intercalate ['/'] (M.map rankFen) := by
  have hne : M.map rankFen ≠ [] := by
    intro hnil
    have := congrArg List.length hnil
    simp [h] at this
  rw [fenPlacement, fenRows_eq_self M h, foldl_fenRowStep, List.nil_append]
  have hmm : M.map (fun r => rankFen r ++ ['/'])
      = (M.map rankFen).map (fun r => r ++ ['/']) := by
    simp [List.map_map]
  rw [hmm, flatten_slash_dropLast _ hne]

/-! ## Claims C1–C4 -/

/-- C1: encoding the standard initial chess setup with `board_to_fen` yields,
for either side-to-move flag, a FEN string whose piece-placement field (the
text before the first space) is exactly
`rnbqkbnr/pppppppp/8/8/8/8/PPPPPPPP/RNBQKBNR`. -/
theorem c1_initial_setup_placement :
    placementField (board_to_fen initialSetup "black")
        = ("rnbqkbnr/pppppppp/8/8/8/8/PPPPPPPP/RNBQKBNR").data ∧
      placementField (board_to_fen initialSetup "white")
        = ("rnbqkbnr/pppppppp/8/8/8/8/PPPPPPPP/RNBQKBNR").data := by
  decide

/-- C2, counterexample: the claim says the ranks of the piece-placement field
are emitted from the matrix's last row (index 7) first to its first row
(index 0) last.  On `kBoard` (all `'K'`s in row 0, empty elsewhere) the code
emits row 0 first: the claimed placement would be `8/8/8/8/8/8/8/KKKKKKKK`,
the code produces `KKKKKKKK/8/8/8/8/8/8/8`. -/
theorem c2_counterexample :
    fenPlacement kBoard = ("KKKKKKKK/8/8/8/8/8/8/8").data ∧
      lastRowFirstPlacement kBoard = ("8/8/8/8/8/8/8/KKKKKKKK").data ∧
      fenPlacement kBoard ≠ lastRowFirstPlacement kBoard := by
  decide

/-- C2 (amended): for every 8×8 matrix, `board_to_fen` emits the ranks of the
piece-placement field in order from the matrix's FIRST row (index 0) first to
its LAST row (index 7) last — not last row first as claimed — and within each
rank it emits the squares of that row from left to right, separating ranks
with `'/'` and omitting the separator after the last emitted rank. -/
theorem c2_rank_order_amended (M : List (List Char)) (h8 : M.length = 8)
    (hrows : ∀ r ∈ M, r.length = 8) :
    fenPlacement M = List.intercalate ['/'] (M.map rankFen) :=
  fenPlacement_eq M h8

/-- Witness for `c2_rank_order_amended` at the stub board. -/
theorem c2_rank_order_amended_witness :
    fenPlacement get_board_from_screenshot
      = List.intercalate ['/'] (get_board_from_screenshot.map rankFen) :=
  c2_rank_order_amended get_board_from_screenshot (by decide) (by decide)

/-- C3: for every 8×8 matrix, when the color flag passed to `board_to_fen` is
`"black"` the emitted FEN ends with the suffix `" w - - 0 1"`, and for any
other color flag it ends with `" b - - 0 1"`. -/
theorem c3_side_to_move_suffix (M : List (List Char)) (color : String)
    (h8 : M.length = 8) (hrows : ∀ r ∈ M, r.length = 8) :
    (color = "black" → (" w - - 0 1").data <:+ board_to_fen M color) ∧
      (color ≠ "black" → (" b - - 0 1").data <:+ board_to_fen M color) := by
  constructor <;> intro hc <;> simp [board_to_fen, hc]

/-- Witness for `c3_side_to_move_suffix`: both branches at the initial setup. -/
theorem c3_side_to_move_suffix_witness :
    (" w - - 0 1").data <:+ board_to_fen initialSetup "black" ∧
      (" b - - 0 1").data <:+ board_to_fen initialSetup "white" :=
  ⟨(c3_side_to_move_suffix initialSetup "black" (by decide) (by decide)).1 rfl,
   (c3_side_to_move_suffix initialSetup "white" (by decide) (by decide)).2 (by decide)⟩

/-- C4, counterexample: in the main loop with tracked side `"black"` the board
is flipped (line 197) before `board_to_fen` is called, so the piece-placement
field is NOT the digit-collapsed form of the unflipped stub matrix. -/
theorem c4_counterexample :
    placementField (mainLoopFen "black")
      ≠ ("R1BK3R/1PP1P3/3P4/Pb4n1/4P3/ppB5/6pp/1k1r3r").data := by
  decide

/-- C4 (amended): in the main loop with tracked side `"black"`, the stub
matrix is first flipped (rows and columns reversed), and the FEN
piece-placement field computed is exactly
`r3r1k1/pp6/5Bpp/3P4/1n4bP/4P3/3P1PP1/R3KB1R`; the string claimed by the
spec, `R1BK3R/1PP1P3/3P4/Pb4n1/4P3/ppB5/6pp/1k1r3r`, is instead the
digit-collapsed encoding of the UNFLIPPED stub matrix, i.e. of
`board_to_fen` applied directly to `get_board_from_screenshot`'s value. -/
theorem c4_amended_main_loop_placement :
    placementField (mainLoopFen "black")
        = ("r3r1k1/pp6/5Bpp/3P4/1n4bP/4P3/3P1PP1/R3KB1R").data ∧
      placementField (board_to_fen get_board_from_screenshot "black")
        = ("R1BK3R/1PP1P3/3P4/Pb4n1/4P3/ppB5/6pp/1k1r3r").data := by
  decide

/-! ## Grid geometry (claim C6) -/

/-- C6: for any two corner points spanning a region of positive width
`W = x2 - x1` and positive height `H = y2 - y1`, the grid returned by
`calculate_centers` has at every index `[r][c]`, `r, c < 8`, the point
`(x1 + (c + 0.5)·W/8, y1 + (r + 0.5)·H/8)`, width and height divided by 8
independently and with no rounding (the embedding computes over `ℚ`). -/
theorem c6_calculate_centers_spec (p1 p2 : Point)
    (hw : 0 < p2.x - p1.x) (hh : 0 < p2.y - p1.y)
    (r c : Nat) (hr : r < 8) (hc : c < 8) :
    ((calculate_centers p1 p2).getD r []).getD c ⟨0, 0⟩ =
      ⟨p1.x + ((c : ℚ) + 0.5) * (p2.x - p1.x) / 8,
       p1.y + ((r : ℚ) + 0.5) * (p2.y - p1.y) / 8⟩ := by
  have hrow : (calculate_centers p1 p2).getD r [] =
      (List.range 8).map (fun (col : Nat) => Point.mk
        (p1.x + ((col : ℚ) + 0.5) * ((p2.x - p1.x) / 8))
        (p1.y + ((r : ℚ) + 0.5) * ((p2.y - p1.y) / 8))) := by
    simp only [calculate_centers]
    rw [List.getD_eq_getElem _ _ (by simpa using hr)]
    simp only [List.getElem_map, List.getElem_range]
  rw [hrow, List.getD_eq_getElem _ _ (by simpa using hc)]
  simp only [List.getElem_map, List.getElem_range]
  congr 1 <;> ring

/-- Witness for `c6_calculate_centers_spec`: the region `(0,0)`–`(8,8)` has
unit squares, and the center of cell `[3][5]` is `(5.5, 3.5)`. -/
theorem c6_calculate_centers_spec_witness :
    ((calculate_centers ⟨0, 0⟩ ⟨8, 8⟩).getD 3 []).getD 5 ⟨0, 0⟩ = ⟨5.5, 3.5⟩ := by
  rw [c6_calculate_centers_spec ⟨0, 0⟩ ⟨8, 8⟩ (show (0 : ℚ) < 8 - 0 by norm_num)
    (show (0 : ℚ) < 8 - 0 by norm_num) 3 5 (by decide) (by decide)]
  rw [Point.mk.injEq]
  norm_num

/-! ## Move parsing and lookup (claims C5, C7, C10) -/

/-- Character order is code-point order. -/
theorem char_le_iff {a b : Char} : a ≤ b ↔ a.toNat ≤ b.toNat := Iff.rfl

theorem toNat_char_a : ('a').toNat = 97 := rfl

theorem toNat_char_zero : ('0').toNat = 48 := rfl

/-- A nonnegative in-range Python index is a plain lookup. -/
theorem pyGet_eq_getD {α : Type} (l : List α) (i : Int) (d : α)
    (h0 : 0 ≤ i) (h1 : i < (l.length : Int)) :
    pyGet l i = some (l.getD i.toNat d) := by
  have hlt : i.toNat < l.length := by omega
  rw [pyGet, if_pos h0, List.getElem?_eq_getElem hlt, List.getD_eq_getElem l d hlt]

/-- `pyGet` fails exactly on indices outside `-len .. len - 1`. -/
theorem pyGet_eq_none_iff {α : Type} (l : List α) (i : Int) :
    pyGet l i = none ↔ i < -(l.length : Int) ∨ (l.length : Int) ≤ i := by
  rw [pyGet]
  split_ifs with h0 h1
  · rw [List.getElem?_eq_none_iff]
    omega
  · rw [List.getElem?_eq_none_iff]
    omega
  · simp
    omega

/-- A successful `pyGet` returns an element of the list. -/
theorem pyGet_mem {α : Type} {l : List α} {i : Int} {x : α}
    (h : pyGet l i = some x) : x ∈ l := by
  rw [pyGet] at h
  split_ifs at h
  · exact List.getElem?_mem h
  · exact List.getElem?_mem h

theorem getD_mem {α : Type} (l : List α) (n : Nat) (d : α) (h : n < l.length) :
    l.getD n d ∈ l := by
  rw [List.getD_eq_getElem l d h]
  exact List.getElem_mem h

/-- On an 8×8 grid, when all four parsed indices are the casts of naturals
below 8, `make_move` succeeds and returns the two grid entries, origin
first. -/
theorem make_move_eq (g : List (List Point)) (hg : g.length = 8)
    (hrows : ∀ r ∈ g, r.length = 8) (move : List Char)
    {ro co rd cd : Nat}
    (h1 : rankIndex (move.getD 1 ' ') = (ro : Int)) (hb1 : ro < 8)
    (h2 : fileIndex (move.getD 0 ' ') = (co : Int)) (hb2 : co < 8)
    (h3 : rankIndex (move.getD 3 ' ') = (rd : Int)) (hb3 : rd < 8)
    (h4 : fileIndex (move.getD 2 ' ') = (cd : Int)) (hb4 : cd < 8) :
    make_move g move =
      some ((g.getD ro []).getD co ⟨0, 0⟩, (g.getD rd []).getD cd ⟨0, 0⟩) := by
  have hro : ro < g.length := by omega
  have hrd : rd < g.length := by omega
  have hgro : (g.getD ro []).length = 8 := hrows _ (getD_mem g ro [] hro)
  have hgrd : (g.getD rd []).length = 8 := hrows _ (getD_mem g rd [] hrd)
  have e1 : pyGet g (rankIndex (move.getD 1 ' ')) = some (g.getD ro []) := by
    rw [h1, pyGet_eq_getD g _ [] (by omega) (by omega), Int.toNat_natCast]
  have e3 : pyGet g (rankIndex (move.getD 3 ' ')) = some (g.getD rd []) := by
    rw [h3, pyGet_eq_getD g _ [] (by omega) (by omega), Int.toNat_natCast]
  have e2 : pyGet (g.getD ro []) (fileIndex (move.getD 0 ' '))
      = some ((g.getD ro []).getD co ⟨0, 0⟩) := by
    rw [h2, pyGet_eq_getD _ _ ⟨0, 0⟩ (by omega) (by omega), Int.toNat_natCast]
  have e4 : pyGet (g.getD rd []) (fileIndex (move.getD 2 ' '))
      = some ((g.getD rd []).getD cd ⟨0, 0⟩) := by
    rw [h4, pyGet_eq_getD _ _ ⟨0, 0⟩ (by omega) (by omega), Int.toNat_natCast]
  simp only [make_move, e1, e2, e3, e4, Option.some_bind, Option.map_some']

/-- C5: `make_move` parses a four-character move so that each file letter
maps to column `ord(file) - ord('a')` and each rank digit `d` to row
`8 - d`, and the looked-up grid entries are the origin point first and the
destination point second. -/
theorem c5_move_index_mapping (g : List (List Point))
    (hg : g.length = 8) (hrows : ∀ r ∈ g, r.length = 8)
    (f1 r1 f2 r2 : Char)
    (hf1 : 'a' ≤ f1 ∧ f1 ≤ 'h') (hr1 : '1' ≤ r1 ∧ r1 ≤ '8')
    (hf2 : 'a' ≤ f2 ∧ f2 ≤ 'h') (hr2 : '1' ≤ r2 ∧ r2 ≤ '8') :
    make_move g [f1, r1, f2, r2] =
      some ((g.getD (8 - (r1.toNat - ('0').toNat)) []).getD (f1.toNat - ('a').toNat) ⟨0, 0⟩,
            (g.getD (8 - (r2.toNat - ('0').toNat)) []).getD (f2.toNat - ('a').toNat) ⟨0, 0⟩) := by
  have bf1 : 97 ≤ f1.toNat ∧ f1.toNat ≤ 104 := ⟨char_le_iff.mp hf1.1, char_le_iff.mp hf1.2⟩
  have bf2 : 97 ≤ f2.toNat ∧ f2.toNat ≤ 104 := ⟨char_le_iff.mp hf2.1, char_le_iff.mp hf2.2⟩
  have br1 : 49 ≤ r1.toNat ∧ r1.toNat ≤ 56 := ⟨char_le_iff.mp hr1.1, char_le_iff.mp hr1.2⟩
  have br2 : 49 ≤ r2.toNat ∧ r2.toNat ≤ 56 := ⟨char_le_iff.mp hr2.1, char_le_iff.mp hr2.2⟩
  exact make_move_eq g hg hrows [f1, r1, f2, r2]
    (by show rankIndex r1 = _; simp only [rankIndex, toNat_char_zero]; omega)
    (by simp only [toNat_char_zero]; omega)
    (by show fileIndex f1 = _; simp only [fileIndex, toNat_char_a]; omega)
    (by simp only [toNat_char_a]; omega)
    (by show rankIndex r2 = _; simp only [rankIndex, toNat_char_zero]; omega)
    (by simp only [toNat_char_zero]; omega)
    (by show fileIndex f2 = _; simp only [fileIndex, toNat_char_a]; omega)
    (by simp only [toNat_char_a]; omega)

/-- Witness for `c5_move_index_mapping`: on the self-describing grid `gTest`,
the move `"e2e4"` clicks the entry at row 6, column 4 first and the entry at
row 4, column 4 second. -/
theorem c5_move_index_mapping_witness :
    make_move gTest ['e', '2', 'e', '4'] = some (⟨4, 6⟩, ⟨4, 4⟩) := by
  rw [c5_move_index_mapping gTest (by decide) (by decide) 'e' '2' 'e' '4'
    (by decide) (by decide) (by decide) (by decide)]
  decide

/-- C7, counterexample: the move `"a9a9"` parses to rank index `8 - 9 = -1`,
which falls outside 0..7, yet no lookup fault is raised: Python's negative
indexing silently yields the last row, and `make_move` returns the two
(identical) points it would click, `(0, 7)` on `gTest`. -/
theorem c7_counterexample :
    (rankIndex '9' < 0 ∨ 7 < rankIndex '9') ∧
      make_move gTest ['a', '9', 'a', '9'] = some (⟨0, 7⟩, ⟨0, 7⟩) := by
  decide

/-- C7 (amended): `make_move` itself validates nothing, but on an 8×8 grid a
lookup fault is raised exactly when one of the four parsed indices falls
outside `-8 .. 7` — not outside `0 .. 7` as claimed: Python list indexing
accepts negative indices down to `-8`, which silently address squares from
the far side of the board.  (Rank characters are assumed to be digits, since
a non-digit rank character makes Python's `int()` raise before any lookup.) -/
theorem c7_amended_lookup_fault_iff (g : List (List Point))
    (hg : g.length = 8) (hrows : ∀ r ∈ g, r.length = 8)
    (move : List Char) (hlen : 4 ≤ move.length)
    (hd1 : (move.getD 1 ' ').isDigit = true)
    (hd3 : (move.getD 3 ' ').isDigit = true) :
    make_move g move = none ↔
      (rankIndex (move.getD 1 ' ') < -8 ∨ 7 < rankIndex (move.getD 1 ' ')) ∨
      (fileIndex (move.getD 0 ' ') < -8 ∨ 7 < fileIndex (move.getD 0 ' ')) ∨
      (rankIndex (move.getD 3 ' ') < -8 ∨ 7 < rankIndex (move.getD 3 ' ')) ∨
      (fileIndex (move.getD 2 ' ') < -8 ∨ 7 < fileIndex (move.getD 2 ' ')) := by
  have hcast : (g.length : Int) = 8 := by rw [hg]; rfl
  rcases hA : pyGet g (rankIndex (move.getD 1 ' ')) with _ | rowA
  · have hA' := (pyGet_eq_none_iff g _).mp hA
    rw [hcast] at hA'
    simp only [make_move, hA, Option.none_bind]
    simp only [true_iff]
    omega
  · have hAin : ¬(pyGet g (rankIndex (move.getD 1 ' ')) = none) := by rw [hA]; simp
    rw [pyGet_eq_none_iff, hcast] at hAin
    have hlenA : (rowA.length : Int) = 8 := by rw [hrows rowA (pyGet_mem hA)]; rfl
    rcases hB : pyGet rowA (fileIndex (move.getD 0 ' ')) with _ | pB
    · have hB' := (pyGet_eq_none_iff rowA _).mp hB
      rw [hlenA] at hB'
      simp only [make_move, hA, hB, Option.some_bind, Option.none_bind]
      simp only [true_iff]
      omega
    · have hBin : ¬(pyGet rowA (fileIndex (move.getD 0 ' ')) = none) := by rw [hB]; simp
      rw [pyGet_eq_none_iff, hlenA] at hBin
      rcases hC : pyGet g (rankIndex (move.getD 3 ' ')) with _ | rowC
      · have hC' := (pyGet_eq_none_iff g _).mp hC
        rw [hcast] at hC'
        simp only [make_move, hA, hB, hC, Option.some_bind, Option.none_bind]
        simp only [true_iff]
        omega
      · have hCin : ¬(pyGet g (rankIndex (move.getD 3 ' ')) = none) := by rw [hC]; simp
        rw [pyGet_eq_none_iff, hcast] at hCin
        have hlenC : (rowC.length : Int) = 8 := by rw [hrows rowC (pyGet_mem hC)]; rfl
        rcases hD : pyGet rowC (fileIndex (move.getD 2 ' ')) with _ | pD
        · have hD' := (pyGet_eq_none_iff rowC _).mp hD
          rw [hlenC] at hD'
          simp only [make_move, hA, hB, hC, hD, Option.some_bind, Option.none_bind,
            Option.map_none']
          simp only [true_iff]
          omega
        · have hDin : ¬(pyGet rowC (fileIndex (move.getD 2 ' ')) = none) := by rw [hD]; simp
          rw [pyGet_eq_none_iff, hlenC] at hDin
          simp only [make_move, hA, hB, hC, hD, Option.some_bind, Option.map_some']
          constructor
          · intro hsome
            cases hsome
          · intro hout
            omega

/-- Witness for `c7_amended_lookup_fault_iff` at the move `"a9a9"` on
`gTest`: no index is outside `-8 .. 7`, and indeed no fault occurs. -/
theorem c7_amended_lookup_fault_iff_witness :
    make_move gTest ['a', '9', 'a', '9'] = none ↔
      (rankIndex (['a', '9', 'a', '9'].getD 1 ' ') < -8 ∨
        7 < rankIndex (['a', '9', 'a', '9'].getD 1 ' ')) ∨
      (fileIndex (['a', '9', 'a', '9'].getD 0 ' ') < -8 ∨
        7 < fileIndex (['a', '9', 'a', '9'].getD 0 ' ')) ∨
      (rankIndex (['a', '9', 'a', '9'].getD 3 ' ') < -8 ∨
        7 < rankIndex (['a', '9', 'a', '9'].getD 3 ' ')) ∨
      (fileIndex (['a', '9', 'a', '9'].getD 2 ' ') < -8 ∨
        7 < fileIndex (['a', '9', 'a', '9'].getD 2 ' ')) :=
  c7_amended_lookup_fault_iff gTest (by decide) (by decide) ['a', '9', 'a', '9']
    (by decide) (by decide) (by decide)

/-- C10: for every move string of length at least 4 whose characters at
positions 0 and 2 are in `'a'..'h'` and whose characters at positions 1 and 3
are digits in `'1'..'8'`, the four indices computed by `make_move` all lie in
0..7, and both lookups into any 8×8 grid succeed: no lookup fault is
raised. -/
theorem c10_valid_moves_safe (g : List (List Point))
    (hg : g.length = 8) (hrows : ∀ r ∈ g, r.length = 8)
    (move : List Char) (hlen : 4 ≤ move.length)
    (hf1 : 'a' ≤ move.getD 0 ' ' ∧ move.getD 0 ' ' ≤ 'h')
    (hr1 : '1' ≤ move.getD 1 ' ' ∧ move.getD 1 ' ' ≤ '8')
    (hf2 : 'a' ≤ move.getD 2 ' ' ∧ move.getD 2 ' ' ≤ 'h')
    (hr2 : '1' ≤ move.getD 3 ' ' ∧ move.getD 3 ' ' ≤ '8') :
    (0 ≤ fileIndex (move.getD 0 ' ') ∧ fileIndex (move.getD 0 ' ') ≤ 7) ∧
      (0 ≤ rankIndex (move.getD 1 ' ') ∧ rankIndex (move.getD 1 ' ') ≤ 7) ∧
      (0 ≤ fileIndex (move.getD 2 ' ') ∧ fileIndex (move.getD 2 ' ') ≤ 7) ∧
      (0 ≤ rankIndex (move.getD 3 ' ') ∧ rankIndex (move.getD 3 ' ') ≤ 7) ∧
      (make_move g move).isSome = true := by
  have bf1 : 97 ≤ (move.getD 0 ' ').toNat ∧ (move.getD 0 ' ').toNat ≤ 104 :=
    ⟨char_le_iff.mp hf1.1, char_le_iff.mp hf1.2⟩
  have br1 : 49 ≤ (move.getD 1 ' ').toNat ∧ (move.getD 1 ' ').toNat ≤ 56 :=
    ⟨char_le_iff.mp hr1.1, char_le_iff.mp hr1.2⟩
  have bf2 : 97 ≤ (move.getD 2 ' ').toNat ∧ (move.getD 2 ' ').toNat ≤ 104 :=
    ⟨char_le_iff.mp hf2.1, char_le_iff.mp hf2.2⟩
  have br2 : 49 ≤ (move.getD 3 ' ').toNat ∧ (move.getD 3 ' ').toNat ≤ 56 :=
    ⟨char_le_iff.mp hr2.1, char_le_iff.mp hr2.2⟩
  have i1 : 0 ≤ fileIndex (move.getD 0 ' ') ∧ fileIndex (move.getD 0 ' ') ≤ 7 := by
    simp only [fileIndex, toNat_char_a]
    omega
  have i2 : 0 ≤ rankIndex (move.getD 1 ' ') ∧ rankIndex (move.getD 1 ' ') ≤ 7 := by
    simp only [rankIndex, toNat_char_zero]
    omega
  have i3 : 0 ≤ fileIndex (move.getD 2 ' ') ∧ fileIndex (move.getD 2 ' ') ≤ 7 := by
    simp only [fileIndex, toNat_char_a]
    omega
  have i4 : 0 ≤ rankIndex (move.getD 3 ' ') ∧ rankIndex (move.getD 3 ' ') ≤ 7 := by
    simp only [rankIndex, toNat_char_zero]
    omega
  refine ⟨i1, i2, i3, i4, ?_⟩
  rw [make_move_eq g hg hrows move
    (by omega : rankIndex (move.getD 1 ' ') = ((rankIndex (move.getD 1 ' ')).toNat : Int))
    (by omega)
    (by omega : fileIndex (move.getD 0 ' ') = ((fileIndex (move.getD 0 ' ')).toNat : Int))
    (by omega)
    (by omega : rankIndex (move.getD 3 ' ') = ((rankIndex (move.getD 3 ' ')).toNat : Int))
    (by omega)
    (by omega : fileIndex (move.getD 2 ' ') = ((fileIndex (move.getD 2 ' ')).toNat : Int))
    (by omega)]
  rfl

/-- Witness for `c10_valid_moves_safe`: the move `"g1f3"` on `gTest`. -/
theorem c10_valid_moves_safe_witness :
    (0 ≤ fileIndex (['g', '1', 'f', '3'].getD 0 ' ') ∧
        fileIndex (['g', '1', 'f', '3'].getD 0 ' ') ≤ 7) ∧
      (0 ≤ rankIndex (['g', '1', 'f', '3'].getD 1 ' ') ∧
        rankIndex (['g', '1', 'f', '3'].getD 1 ' ') ≤ 7) ∧
      (0 ≤ fileIndex (['g', '1', 'f', '3'].getD 2 ' ') ∧
        fileIndex (['g', '1', 'f', '3'].getD 2 ' ') ≤ 7) ∧
      (0 ≤ rankIndex (['g', '1', 'f', '3'].getD 3 ' ') ∧
        rankIndex (['g', '1', 'f', '3'].getD 3 ' ') ≤ 7) ∧
      (make_move gTest ['g', '1', 'f', '3']).isSome = true :=
  c10_valid_moves_safe gTest (by decide) (by decide) ['g', '1', 'f', '3']
    (by decide) (by decide) (by decide) (by decide) (by decide)

/-! ## Rank-segment invariants (claims C8, C9) -/

/-- UInt32 order is its numeric order. -/
theorem uint32_le_iff {a b : UInt32} : a ≤ b ↔ a.toNat ≤ b.toNat := Iff.rfl

/-- A character is a digit exactly when its code point lies in 48..57. -/
theorem isDigit_iff_toNat {c : Char} : c.isDigit = true ↔ 48 ≤ c.toNat ∧ c.toNat ≤ 57 := by
  simp only [Char.isDigit, Bool.and_eq_true, decide_eq_true_eq, ge_iff_le]
  exact Iff.rfl

/-- An ASCII letter's code point lies in 65..90 or 97..122. -/
theorem isAlpha_toNat {c : Char} (h : c.isAlpha = true) :
    (65 ≤ c.toNat ∧ c.toNat ≤ 90) ∨ (97 ≤ c.toNat ∧ c.toNat ≤ 122) := by
  simp only [Char.isAlpha, Char.isUpper, Char.isLower, Bool.or_eq_true, Bool.and_eq_true,
    decide_eq_true_eq, ge_iff_le] at h
  exact h

/-- A piece letter is not a digit, not the empty symbol, not the rank
separator, and accounts for exactly one square. -/
theorem isAlpha_facts {c : Char} (h : c.isAlpha = true) :
    c.isDigit = false ∧ c ≠ '-' ∧ c ≠ '/' ∧ squareWeight c = 1 := by
  have hd : c.isDigit = false := by
    rcases hdig : c.isDigit with _ | _
    · rfl
    · rcases isDigit_iff_toNat.mp hdig with ⟨h1, h2⟩
      rcases isAlpha_toNat h with ⟨h3, h4⟩ | ⟨h3, h4⟩ <;> omega
  refine ⟨hd, fun e => absurd (e ▸ h) (by decide), fun e => absurd (e ▸ h) (by decide), ?_⟩
  rw [squareWeight, hd]
  rfl

/-- A digit character is not the rank separator. -/
theorem isDigit_ne_slash {c : Char} (h : c.isDigit = true) : c ≠ '/' :=
  fun e => absurd (e ▸ h) (by decide)

/-- `str(empty_counter)` for a counter in 1..8: a single digit character whose
weight is the counter itself. -/
theorem digit_chunk_spec (n : Nat) (h1 : 0 < n) (h2 : n ≤ 8) :
    rankWeight (Nat.toDigits 10 n) = n ∧ ∀ c ∈ Nat.toDigits 10 n, c.isDigit = true := by
  interval_cases n <;> decide

theorem rankWeight_append (a b : List Char) :
    rankWeight (a ++ b) = rankWeight a + rankWeight b := by
  simp [rankWeight]

/-- The claim C9 weight (digit values plus non-digit count) is the per-square
weight sum. -/
theorem segmentWeight_eq (seg : List Char) : segmentWeight seg = rankWeight seg := by
  induction seg with
  | nil => rfl
  | cons c cs ih =>
    by_cases hd : c.isDigit = true <;>
      simp only [segmentWeight, rankWeight, List.filter_cons, hd, List.map_cons,
        List.sum_cons, List.length_cons, squareWeight, Bool.not_true, Bool.not_false,
        if_true, if_false, ite_true, ite_false, Bool.false_eq_true] at * <;>
      omega

/-- On a row without empty squares the inner loop copies the row verbatim. -/
theorem foldl_no_empty (row : List Char) : ∀ s : List Char,
    (∀ c ∈ row, c ≠ '-') → row.foldl fenSquareStep (s, 0) = (s ++ row, 0) := by
  induction row with
  | nil => intro s hrow; simp
  | cons c rest ih =>
    intro s hrow
    have hc : c ≠ '-' := hrow c (by simp)
    simp only [List.foldl_cons, fenSquareStep, if_neg hc, gt_iff_lt, Nat.lt_irrefl,
      if_false]
    rw [ih (s ++ [c]) (fun d hd => hrow d (by simp [hd]))]
    simp

/-- `rankFen` of a row without empty squares is the row itself. -/
theorem rankFen_no_empty (row : List Char) (h : ∀ c ∈ row, c ≠ '-') :
    rankFen row = row := by
  rw [rankFen, foldl_no_empty row [] h]
  simp

/-- Inner-loop invariant over piece-or-empty rows: the accumulated text plus
the pending counter always accounts for one square per character consumed,
the counter never exceeds the squares consumed, and every character appended
to the accumulator is a letter or a digit. -/
theorem foldl_weight (row : List Char) : ∀ (s : List Char) (n : Nat),
    (∀ c ∈ row, c.isAlpha = true ∨ c = '-') → n + row.length ≤ 8 →
    rankWeight (row.foldl fenSquareStep (s, n)).1 + (row.foldl fenSquareStep (s, n)).2
        = rankWeight s + n + row.length ∧
      (row.foldl fenSquareStep (s, n)).2 ≤ n + row.length ∧
      ∀ c ∈ (row.foldl fenSquareStep (s, n)).1,
        c ∈ s ∨ c.isAlpha = true ∨ c.isDigit = true := by
  induction row with
  | nil =>
    intro s n hrow hn
    simpa using fun c hc => Or.inl hc
  | cons c rest ih =>
    intro s n hrow hn
    simp only [List.length_cons] at hn ⊢
    have hrest : ∀ d ∈ rest, d.isAlpha = true ∨ d = '-' :=
      fun d hd => hrow d (by simp [hd])
    rcases hrow c (by simp) with hca | hcd
    · have hcne : c ≠ '-' := (isAlpha_facts hca).2.1
      have hcw : squareWeight c = 1 := (isAlpha_facts hca).2.2.2
      simp only [List.foldl_cons, fenSquareStep, if_neg hcne]
      by_cases hn0 : n > 0
      · rw [if_pos hn0]
        obtain ⟨hdw, hdc⟩ := digit_chunk_spec n hn0 (by omega)
        obtain ⟨ihw, ihn, ihc⟩ := ih (s ++ Nat.toDigits 10 n ++ [c]) 0 hrest (by omega)
        have hsw : rankWeight (s ++ Nat.toDigits 10 n ++ [c])
            = rankWeight s + n + 1 := by
          rw [rankWeight_append, rankWeight_append, hdw]
          simp [rankWeight, hcw]
        refine ⟨by rw [ihw, hsw]; omega, by omega, ?_⟩
        intro d hd
        rcases ihc d hd with hds | hds
        · rcases List.mem_append.mp hds with hds' | hds'
          · rcases List.mem_append.mp hds' with hds'' | hds''
            · exact Or.inl hds''
            · exact Or.inr (Or.inr (hdc d hds''))
          · simp only [List.mem_singleton] at hds'
            exact Or.inr (Or.inl (hds' ▸ hca))
        · exact Or.inr hds
      · rw [if_neg hn0]
        have hn' : n = 0 := by omega
        obtain ⟨ihw, ihn, ihc⟩ := ih (s ++ [c]) 0 hrest (by omega)
        have hsw : rankWeight (s ++ [c]) = rankWeight s + 1 := by
          rw [rankWeight_append]
          simp [rankWeight, hcw]
        refine ⟨by rw [ihw, hsw]; omega, by omega, ?_⟩
        intro d hd
        rcases ihc d hd with hds | hds
        · rcases List.mem_append.mp hds with hds' | hds'
          · exact Or.inl hds'
          · simp only [List.mem_singleton] at hds'
            exact Or.inr (Or.inl (hds' ▸ hca))
        · exact Or.inr hds
    · subst hcd
      simp only [List.foldl_cons]
      rw [show fenSquareStep (s, n) '-' = (s, n + 1) from rfl]
      obtain ⟨ihw, ihn, ihc⟩ := ih s (n + 1) hrest (by omega)
      exact ⟨by rw [ihw]; omega, by omega, ihc⟩

/-- On an 8-square piece-or-empty row, the encoded rank accounts for exactly
8 squares and contains no separator. -/
theorem rankFen_weight (row : List Char) (hlen : row.length = 8)
    (hrow : ∀ c ∈ row, c.isAlpha = true ∨ c = '-') :
    rankWeight (rankFen row) = 8 ∧ ∀ c ∈ rankFen row, c ≠ '/' := by
  obtain ⟨hw, hn, hchars⟩ := foldl_weight row [] 0 hrow (by omega)
  have hw8 : rankWeight (row.foldl fenSquareStep ([], 0)).1
      + (row.foldl fenSquareStep ([], 0)).2 = 8 := by
    rw [hw, hlen]
    rfl
  have hnoslash : ∀ c ∈ (row.foldl fenSquareStep ([], 0)).1, c ≠ '/' := by
    intro c hc
    rcases hchars c hc with h | h | h
    · cases h
    · exact (isAlpha_facts h).2.2.1
    · exact isDigit_ne_slash h
  rw [rankFen]
  by_cases h2 : (row.foldl fenSquareStep ([], 0)).2 > 0
  · rw [if_pos h2]
    obtain ⟨hdw, hdc⟩ := digit_chunk_spec _ h2 (by omega)
    refine ⟨by rw [rankWeight_append, hdw]; omega, ?_⟩
    intro c hc
    rcases List.mem_append.mp hc with hc' | hc'
    · exact hnoslash c hc'
    · exact isDigit_ne_slash (hdc c hc')
  · rw [if_neg h2]
    exact ⟨by omega, hnoslash⟩

/-- C8: for every 8×8 matrix of piece letters — a Piece Matrix in which no
square is the empty symbol `'-'` — each of the 8 `'/'`-separated rank
substrings of the piece-placement field consists of exactly 8 non-digit
characters and contains no digit characters. -/
theorem c8_no_empty_ranks (M : List (List Char)) (h8 : M.length = 8)
    (hrows : ∀ r ∈ M, r.length = 8)
    (hsym : ∀ r ∈ M, ∀ c ∈ r, c.isAlpha = true) :
    ((fenPlacement M).splitOn '/').length = 8 ∧
      ∀ seg ∈ (fenPlacement M).splitOn '/',
        seg.length = 8 ∧ ∀ c ∈ seg, c.isDigit = false := by
  have hmap : M.map rankFen = M := by
    have h1 : ∀ r ∈ M, rankFen r = r :=
      fun r hr => rankFen_no_empty r (fun c hc => (isAlpha_facts (hsym r hr c hc)).2.1)
    rw [List.map_congr_left h1]
    exact List.map_id M
  have hne : M ≠ [] := by
    intro hnil
    rw [hnil] at h8
    cases h8
  have hsplit : (fenPlacement M).splitOn '/' = M := by
    rw [fenPlacement_eq M h8, hmap]
    exact List.splitOn_intercalate M '/'
      (fun l hl hmem => (isAlpha_facts (hsym l hl '/' hmem)).2.2.1 rfl) hne
  rw [hsplit]
  exact ⟨h8, fun seg hseg =>
    ⟨hrows seg hseg, fun c hc => (isAlpha_facts (hsym seg hseg c hc)).1⟩⟩

/-- Witness for `c8_no_empty_ranks` at the fully occupied board. -/
theorem c8_no_empty_ranks_witness :
    ((fenPlacement fullBoard).splitOn '/').length = 8 ∧
      ∀ seg ∈ (fenPlacement fullBoard).splitOn '/',
        seg.length = 8 ∧ ∀ c ∈ seg, c.isDigit = false :=
  c8_no_empty_ranks fullBoard (by decide) (by decide) (by decide)

/-- C9: for every 8×8 matrix whose entries are single piece letters or `'-'`,
the piece-placement field has exactly 8 `'/'`-separated segments, and in every
segment the sum of the numeric values of its digit characters plus the count
of its non-digit characters is exactly 8; in particular, for the all-empty
matrix every segment is exactly `"8"`. -/
theorem c9_segment_weights (M : List (List Char)) (h8 : M.length = 8)
    (hrows : ∀ r ∈ M, r.length = 8)
    (hsym : ∀ r ∈ M, ∀ c ∈ r, c.isAlpha = true ∨ c = '-') :
    ((fenPlacement M).splitOn '/').length = 8 ∧
      (∀ seg ∈ (fenPlacement M).splitOn '/', segmentWeight seg = 8) ∧
      fenPlacement emptyBoard = ("8/8/8/8/8/8/8/8").data := by
  have hne : M.map rankFen ≠ [] := by
    intro hnil
    have := congrArg List.length hnil
    simp [h8] at this
  have hsplit : (fenPlacement M).splitOn '/' = M.map rankFen := by
    rw [fenPlacement_eq M h8]
    refine List.splitOn_intercalate (M.map rankFen) '/' ?_ hne
    intro l hl hmem
    obtain ⟨r, hr, hrfl⟩ := List.mem_map.mp hl
    exact (rankFen_weight r (hrows r hr) (hsym r hr)).2 '/' (hrfl ▸ hmem) rfl
  refine ⟨by rw [hsplit]; simp [h8], ?_, by decide⟩
  intro seg hseg
  rw [hsplit] at hseg
  obtain ⟨r, hr, hrfl⟩ := List.mem_map.mp hseg
  rw [segmentWeight_eq, ← hrfl]
  exact (rankFen_weight r (hrows r hr) (hsym r hr)).1

/-- Witness for `c9_segment_weights` at the stub board. -/
theorem c9_segment_weights_witness :
    ((fenPlacement get_board_from_screenshot).splitOn '/').length = 8 ∧
      (∀ seg ∈ (fenPlacement get_board_from_screenshot).splitOn '/',
        segmentWeight seg = 8) ∧
      fenPlacement emptyBoard = ("8/8/8/8/8/8/8/8").data :=
  c9_segment_weights get_board_from_screenshot (by decide) (by decide) (by decide)

end Autoracer
